import Mathlib

/-!
Verification of the `EnumTracker` module
(`src/serde-reflection/src/enum_tracker.rs`).

The Rust module is embedded shallowly:

* `NodeState`, `Node`, `EnumTracker` mirror the Rust data types; the Rust
  `BTreeMap<usize, usize>` of children is embedded as a key-sorted
  association list (`List (Nat × Nat)`) with insert/lookup operations that
  match `BTreeMap::insert` / `BTreeMap::get` and whose iteration order is
  key order, matching `BTreeMap` iteration.
* Fallible operations (Rust `unwrap`/`expect`/`unreachable!` panics) return
  `Option`: `none` models a panic.
* `Node::complete` recurses through the node table along `children` and is
  not structurally recursive (the table may contain cycles), so it is
  embedded fuel-indexed: `completeF fuel nodes n = some b` states that the
  Rust recursion terminates within depth `fuel` with result `b`; `none` for
  every fuel means the Rust call never terminates.
-/

namespace EnumTrackerModel

/-- Mirrors Rust `enum NodeState { Discovery, Completion, Completed }`
(lines 133-138). -/
inductive NodeState where
  | Discovery
  | Completion
  | Completed
deriving DecidableEq, Repr

/-- Mirrors Rust `struct Node` (lines 140-149).  `children` embeds the
`BTreeMap<usize, usize>` as a key-sorted association list. -/
structure Node where
  name : String
  this : Nat
  index : Nat
  max_index : Nat
  children : List (Nat × Nat)
  state : NodeState
  recursive_variants : List Nat
deriving DecidableEq, Repr

/-- `BTreeMap::insert`: insert or replace, keeping keys sorted. -/
def btreeInsert : List (Nat × Nat) → Nat → Nat → List (Nat × Nat)
  | [], k, v => [(k, v)]
  | (k', v') :: rest, k, v =>
    if k < k' then (k, v) :: (k', v') :: rest
    else if k = k' then (k, v) :: rest
    else (k', v') :: btreeInsert rest k v

/-- `BTreeMap::get`: lookup by key. -/
def btreeFind? : List (Nat × Nat) → Nat → Option Nat
  | [], _ => none
  | (k', v') :: rest, k => if k = k' then some v' else btreeFind? rest k

/-- Mirrors Rust `Node::new` (lines 152-162). -/
def Node.new (name : String) (max_index : Nat) : Node :=
  { name := name
    this := 0
    index := 0
    max_index := max_index
    children := []
    state := NodeState.Discovery
    recursive_variants := [] }

/-- Mirrors Rust `Node::advance_index` (lines 164-181). -/
def Node.advance_index (n : Node) (variant_complete : Bool) : Node :=
  if n.index = n.max_index then
    if n.state = NodeState.Discovery then
      { n with state := NodeState.Completion, index := 0 }
    else if n.state = NodeState.Completion ∨ variant_complete = true then
      { n with state := NodeState.Completed }
    else n
  else if n.index < n.max_index ∧
      (n.state = NodeState.Discovery ∨ n.state = NodeState.Completion) then
    { n with index := n.index + 1 }
  else n

/-- The `self.children.iter().map(..).all(|child| child.complete(nodes))`
part of `Node::complete`: iterate entries in key order, short-circuiting on
the first incomplete child; `f` is the recursive completeness check (one
fuel level less). -/
def childrenCompleteF (f : Node → Option Bool) (nodes : List Node) :
    List (Nat × Nat) → Option Bool
  | [] => some true
  | (_, ci) :: rest =>
    match nodes[ci]? with
    | none => none
    | some c =>
      match f c with
      | none => none
      | some b => if b then childrenCompleteF f nodes rest else some false

/-- Mirrors Rust `Node::complete` (lines 183-192), fuel-indexed because the
recursion through `nodes` via `children` need not terminate.  `none` means
either a panic (`unwrap` of a missing node id) or fuel exhaustion; a result
`some b` for some fuel is exactly a terminating Rust run returning `b`. -/
def completeF : Nat → List Node → Node → Option Bool
  | 0, _, _ => none
  | fuel + 1, nodes, n =>
    if n.state = NodeState.Completed then some true
    else if n.index = n.max_index ∧ n.state = NodeState.Completion then
      childrenCompleteF (completeF fuel nodes) nodes n.children
    else some false

/-- Mirrors Rust `struct EnumTracker` (lines 3-7). -/
structure EnumTracker where
  nodes : List Node
  breadcrumbs : List Nat
deriving DecidableEq, Repr

/-- Mirrors Rust `EnumTracker::new` (lines 10-15). -/
def EnumTracker.new : EnumTracker :=
  { nodes := [], breadcrumbs := [] }

/-- Mirrors Rust `EnumTracker::node_exists` (lines 53-60). -/
def EnumTracker.node_exists (t : EnumTracker) (name : String) : Bool :=
  t.nodes.any (fun n => n.name == name)

/-- The `let index = ...` block of `EnumTracker::open_node` (lines 18-33):
resolve an existing node by name (reading its stored `this` field, as
`get_active_node(Some(name))` followed by `node.this` does), or create a new
node and, unless it is the very first node, register it as a child of the
node designated by the last breadcrumb (`get_active_node(None)`).
`none` models the panics of the `unwrap`/`expect` calls. -/
def EnumTracker.resolve_node (t : EnumTracker) (name : String) (max_index : Nat) :
    Option (EnumTracker × Nat) :=
  if t.node_exists name then
    match t.nodes.findIdx? (fun n => n.name == name) with
    | none => none
    | some i =>
      match t.nodes[i]? with
      | none => none
      | some n => some (t, n.this)
  else
    let node : Node := { Node.new name max_index with this := t.nodes.length }
    let nodes1 := t.nodes ++ [node]
    if nodes1.length > 1 then
      match t.breadcrumbs.getLast? with
      | none => none
      | some p =>
        match nodes1[p]? with
        | none => none
        | some parent =>
          let parent1 :=
            { parent with children := btreeInsert parent.children parent.index t.nodes.length }
          some ({ nodes := nodes1.set p parent1, breadcrumbs := t.breadcrumbs },
                t.nodes.length)
    else
      some ({ nodes := nodes1, breadcrumbs := t.breadcrumbs }, t.nodes.length)

/-- The `if self.breadcrumbs.contains(&index)` block of
`EnumTracker::open_node` (lines 36-48): when the resolved id is already on
the open path and the node at that id has not yet marked its current cursor
as recursive, first advance that node's cursor (forced), then insert a
self-loop child entry and record the advanced cursor in
`recursive_variants`. -/
def EnumTracker.recursion_guard (t : EnumTracker) (index : Nat) : Option EnumTracker :=
  if index ∈ t.breadcrumbs then
    match t.nodes[index]? with
    | none => none
    | some parent =>
      if parent.index ∈ parent.recursive_variants then some t
      else
        let p1 := parent.advance_index true
        let p2 :=
          { p1 with
            children := btreeInsert p1.children p1.index p1.this
            recursive_variants := p1.recursive_variants ++ [p1.index] }
        some { t with nodes := t.nodes.set index p2 }
  else some t

/-- Mirrors Rust `EnumTracker::open_node` (lines 17-51): resolve or create,
run the recursion guard, push the resolved id on the breadcrumbs. -/
def EnumTracker.open_node (t : EnumTracker) (name : String) (max_index : Nat) :
    Option EnumTracker :=
  match t.resolve_node name max_index with
  | none => none
  | some (t1, index) =>
    match t1.recursion_guard index with
    | none => none
    | some t2 => some { t2 with breadcrumbs := t2.breadcrumbs ++ [index] }

/-- Mirrors Rust `EnumTracker::next_variant_index` (lines 76-81). -/
def EnumTracker.next_variant_index (t : EnumTracker) : Option Nat :=
  match t.breadcrumbs.getLast? with
  | none => none
  | some i =>
    match t.nodes[i]? with
    | none => none
    | some n => some n.index

/-- Mirrors Rust `EnumTracker::advance_variant` (lines 83-114), fuel-indexed
through the `Node::complete` calls. -/
def EnumTracker.advance_variantF (fuel : Nat) (t : EnumTracker) : Option EnumTracker :=
  match t.breadcrumbs.getLast? with
  | none => none
  | some i =>
    match t.nodes[i]? with
    | none => none
    | some active =>
      match completeF fuel t.nodes active with
      | none => none
      | some ac =>
        if ac = true ∨ active.state = NodeState.Discovery ∨ active.children = [] then
          some { t with nodes := t.nodes.set i (active.advance_index false) }
        else
          match btreeFind? active.children active.index with
          | some ci =>
            match t.nodes[ci]? with
            | none => none
            | some child =>
              match completeF fuel t.nodes child with
              | none => none
              | some cc =>
                if cc = true then
                  some { t with nodes := t.nodes.set i (active.advance_index true) }
                else some t
          | none => some { t with nodes := t.nodes.set i (active.advance_index false) }

/-- Mirrors Rust `EnumTracker::close_node` (lines 116-120). -/
def EnumTracker.close_nodeF (fuel : Nat) (t : EnumTracker) : Option EnumTracker :=
  match t.advance_variantF fuel with
  | none => none
  | some t1 => some { t1 with breadcrumbs := t1.breadcrumbs.dropLast }

/-- Mirrors Rust `EnumTracker::all_complete` (lines 122-130). -/
def EnumTracker.all_completeF (fuel : Nat) (t : EnumTracker) : Option Bool :=
  if t.nodes.length = 0 then some true
  else
    match t.nodes[0]? with
    | none => none
    | some n => completeF fuel t.nodes n

/-- A call of the mutating tracker interface, used to describe call
sequences driven by the external sampler. -/
inductive Op where
  | opn (name : String) (max_index : Nat)
  | cls
deriving DecidableEq, Repr

/-- One call: `opn` is `open_node`, `cls` is `close_node`. -/
def stepF (fuel : Nat) (t : EnumTracker) : Op → Option EnumTracker
  | Op.opn name m => t.open_node name m
  | Op.cls => t.close_nodeF fuel

/-- Run a call sequence; `none` as soon as a call panics or runs out of
fuel. -/
def runF (fuel : Nat) : EnumTracker → List Op → Option EnumTracker
  | t, [] => some t
  | t, op :: ops =>
    match stepF fuel t op with
    | none => none
    | some t1 => runF fuel t1 ops

section ListHelpers

variable {α β : Type}

theorem get_some_lt {l : List α} {i : Nat} {x : α} (h : l[i]? = some x) :
    i < l.length := by
  induction l generalizing i with
  | nil => simp at h
  | cons a l ih =>
    cases i with
    | zero => simp
    | succ j => simpa using ih (by simpa using h)

theorem get_set_self {l : List α} {i : Nat} {a : α} (h : i < l.length) :
    (l.set i a)[i]? = some a := by
  induction l generalizing i with
  | nil => simp at h
  | cons b l ih =>
    cases i with
    | zero => simp
    | succ j => simpa using ih (by simpa using h)

theorem get_set_ne {l : List α} {i j : Nat} {a : α} (h : i ≠ j) :
    (l.set i a)[j]? = l[j]? := by
  induction l generalizing i j with
  | nil => simp
  | cons b l ih =>
    cases i with
    | zero =>
      cases j with
      | zero => exact absurd rfl h
      | succ k => simp
    | succ i' =>
      cases j with
      | zero => simp
      | succ k => simpa using ih (by omega)

theorem get_append_left {l : List α} {i : Nat} (a : α) (h : i < l.length) :
    (l ++ [a])[i]? = l[i]? := by
  rw [List.getElem?_append_left h]

theorem get_mem {l : List α} {i : Nat} {x : α} (h : l[i]? = some x) : x ∈ l := by
  induction l generalizing i with
  | nil => simp at h
  | cons a l ih =>
    cases i with
    | zero => simp_all
    | succ j => exact List.mem_cons_of_mem _ (ih (by simpa using h))

theorem map_set_eq {l : List α} {i : Nat} {a b : α} (f : α → β)
    (hb : l[i]? = some b) (hf : f a = f b) : (l.set i a).map f = l.map f := by
  induction l generalizing i with
  | nil => simp
  | cons c l ih =>
    cases i with
    | zero => simp_all
    | succ j =>
      simp only [List.set_cons_succ, List.map_cons]
      rw [ih (by simpa using hb)]

theorem findIdx?_some {l : List α} {p : α → Bool} {i : Nat}
    (h : l.findIdx? p = some i) : ∃ x, l[i]? = some x ∧ p x = true := by
  induction l generalizing i with
  | nil => simp [List.findIdx?] at h
  | cons a l ih =>
    rw [List.findIdx?_cons] at h
    by_cases hp : p a
    · simp [hp] at h
      exact ⟨a, by simp [← h], hp⟩
    · simp [hp] at h
      obtain ⟨j, hj, rfl⟩ := h
      obtain ⟨x, hx, hpx⟩ := ih hj
      exact ⟨x, by simpa using hx, hpx⟩

theorem any_findIdx?_isSome {l : List α} {p : α → Bool}
    (h : l.any p = true) : ∃ i, l.findIdx? p = some i := by
  induction l with
  | nil => simp at h
  | cons a l ih =>
    rw [List.findIdx?_cons]
    by_cases hp : p a
    · exact ⟨0, by simp [hp]⟩
    · simp [hp] at h ⊢
      obtain ⟨i, hi⟩ := ih (by simpa [List.any_cons, hp] using h)
      exact ⟨i + 1, by simp [hi]⟩

end ListHelpers

/-- Lookup after insert at the same key. -/
theorem btreeFind?_insert_self (ch : List (Nat × Nat)) (k v : Nat) :
    btreeFind? (btreeInsert ch k v) k = some v := by
  induction ch with
  | nil => simp [btreeInsert, btreeFind?]
  | cons kv rest ih =>
    obtain ⟨k', v'⟩ := kv
    by_cases h1 : k < k'
    · simp [btreeInsert, btreeFind?, h1]
    · by_cases h2 : k = k'
      · simp [btreeInsert, btreeFind?, h1, h2]
      · simp [btreeInsert, btreeFind?, h1, h2, ih]

/-- `advance_index` never changes `name`, `this`, `max_index`, `children`
or `recursive_variants`. -/
theorem advance_index_fields (n : Node) (vc : Bool) :
    (n.advance_index vc).name = n.name ∧
    (n.advance_index vc).this = n.this ∧
    (n.advance_index vc).max_index = n.max_index ∧
    (n.advance_index vc).children = n.children ∧
    (n.advance_index vc).recursive_variants = n.recursive_variants := by
  unfold Node.advance_index
  split_ifs <;> exact ⟨rfl, rfl, rfl, rfl, rfl⟩

/-- `advance_index` preserves the cursor bound. -/
theorem advance_index_le (n : Node) (vc : Bool) (h : n.index ≤ n.max_index) :
    (n.advance_index vc).index ≤ (n.advance_index vc).max_index := by
  unfold Node.advance_index
  split_ifs with h1 h2 h3 h4
  · exact Nat.zero_le _
  · exact h
  · exact h
  · exact Nat.succ_le_of_lt h4.1
  · exact h

/-- `advance_index` is a no-op on a Completed node. -/
theorem advance_index_completed (n : Node) (vc : Bool)
    (h : n.state = NodeState.Completed) : n.advance_index vc = n := by
  unfold Node.advance_index
  split_ifs with h1 h2 h3 h4 <;> first
    | rfl
    | (cases n; simp_all)

/-- A node that `complete` reports true is Completed, or is at its final
cursor in Completion phase. -/
theorem completeF_some_true {fuel : Nat} {nodes : List Node} {a : Node}
    (h : completeF fuel nodes a = some true) :
    a.state = NodeState.Completed ∨
      (a.index = a.max_index ∧ a.state = NodeState.Completion) := by
  cases fuel with
  | zero => simp [completeF] at h
  | succ f =>
    rw [completeF] at h
    by_cases h1 : a.state = NodeState.Completed
    · exact Or.inl h1
    · by_cases h2 : a.index = a.max_index ∧ a.state = NodeState.Completion
      · exact Or.inr h2
      · simp [h1, h2] at h

/-- C3: the per-node advance operation: at the final cursor in Discovery it
promotes to Completion and resets the cursor to 0; at the final cursor in
Completion, or when the advance is forced (recursion short-circuit) outside
Discovery, it promotes to Completed; below the final cursor in Discovery or
Completion it increments the cursor by exactly one; and it is a no-op on a
node whose phase is Completed. -/
theorem c3_advance_index_rule (n : Node) (vc : Bool) :
    (n.index = n.max_index → n.state = NodeState.Discovery →
       n.advance_index vc = { n with state := NodeState.Completion, index := 0 }) ∧
    (n.index = n.max_index → n.state = NodeState.Completion →
       n.advance_index vc = { n with state := NodeState.Completed }) ∧
    (n.index = n.max_index → vc = true → n.state ≠ NodeState.Discovery →
       n.advance_index vc = { n with state := NodeState.Completed }) ∧
    (n.index < n.max_index →
       (n.state = NodeState.Discovery ∨ n.state = NodeState.Completion) →
       n.advance_index vc = { n with index := n.index + 1 }) ∧
    (n.state = NodeState.Completed → n.advance_index vc = n) := by
  refine ⟨?_, ?_, ?_, ?_, advance_index_completed n vc⟩ <;>
    intros <;> unfold Node.advance_index <;> split_ifs <;>
    first | rfl | simp_all

/-- Witness for C3: the four advance cases at concrete nodes. -/
theorem c3_advance_index_rule_witness :
    (Node.new "e" 0).advance_index false
        = { Node.new "e" 0 with state := NodeState.Completion, index := 0 } ∧
    ({ Node.new "e" 2 with index := 2, state := NodeState.Completion }).advance_index false
        = { { Node.new "e" 2 with index := 2, state := NodeState.Completion } with
            state := NodeState.Completed } ∧
    ({ Node.new "e" 2 with index := 2 }).advance_index true
        = { { Node.new "e" 2 with index := 2 } with
            state := NodeState.Completion, index := 0 } ∧
    (Node.new "e" 2).advance_index false
        = { Node.new "e" 2 with index := 1 } ∧
    ({ Node.new "e" 2 with state := NodeState.Completed }).advance_index true
        = { Node.new "e" 2 with state := NodeState.Completed } :=
  ⟨(c3_advance_index_rule (Node.new "e" 0) false).1 rfl rfl,
   (c3_advance_index_rule
      { Node.new "e" 2 with index := 2, state := NodeState.Completion } false).2.1 rfl rfl,
   (c3_advance_index_rule { Node.new "e" 2 with index := 2 } true).1 rfl rfl,
   (c3_advance_index_rule (Node.new "e" 2) false).2.2.2.1 (by decide) (Or.inl rfl),
   (c3_advance_index_rule
      { Node.new "e" 2 with state := NodeState.Completed } true).2.2.2.2 rfl⟩

/-- C2: for every tracker state with a non-empty open stack, `close` follows
the decision rule: if the active node satisfies the completeness predicate its
cursor is left unchanged; if it is in Discovery phase or has no recorded
children it advances per the node advance rule; otherwise (Completion with
children) it advances exactly when no child is registered under the current
cursor or the registered child is complete, and an incomplete registered child
leaves the active node entirely unchanged (cursor and phase); in every case
the active id is then popped from the open stack. -/
theorem c2_close_decision (fuel : Nat) (t t' : EnumTracker) (i : Nat) (a : Node)
    (hl : t.breadcrumbs.getLast? = some i)
    (ha : t.nodes[i]? = some a)
    (hc : t.close_nodeF fuel = some t') :
    t'.breadcrumbs = t.breadcrumbs.dropLast ∧
    (completeF fuel t.nodes a = some true →
       ∃ a', t'.nodes[i]? = some a' ∧ a'.index = a.index) ∧
    (completeF fuel t.nodes a = some false →
       ((a.state = NodeState.Discovery ∨ a.children = []) →
          t'.nodes[i]? = some (a.advance_index false)) ∧
       (a.state ≠ NodeState.Discovery → a.children ≠ [] →
          (btreeFind? a.children a.index = none →
             t'.nodes[i]? = some (a.advance_index false)) ∧
          (∀ ci c, btreeFind? a.children a.index = some ci →
             t.nodes[ci]? = some c →
             (completeF fuel t.nodes c = some true →
                t'.nodes[i]? = some (a.advance_index true)) ∧
             (completeF fuel t.nodes c = some false →
                t'.nodes[i]? = some a)))) := by
  have hlt : i < t.nodes.length := get_some_lt ha
  unfold EnumTracker.close_nodeF EnumTracker.advance_variantF at hc
  rw [hl] at hc
  simp only [] at hc
  rw [ha] at hc
  simp only [] at hc
  cases hca : completeF fuel t.nodes a with
  | none => rw [hca] at hc; cases hc
  | some ac =>
    rw [hca] at hc
    simp only [] at hc
    by_cases hbr : ac = true ∨ a.state = NodeState.Discovery ∨ a.children = []
    · rw [if_pos hbr] at hc
      simp only [Option.some.injEq] at hc
      subst hc
      refine ⟨rfl, ?_, ?_⟩
      · intro htrue
        cases htrue
        refine ⟨a.advance_index false, get_set_self hlt, ?_⟩
        rcases completeF_some_true hca with h1 | h1
        · rw [advance_index_completed a false h1]
        · unfold Node.advance_index
          rw [if_pos h1.1]
          simp [h1.2]
      · intro hfalse
        cases hfalse
        constructor
        · intro _
          exact get_set_self hlt
        · intro hnd hne
          rcases hbr with h | h | h
          · cases h
          · exact absurd h hnd
          · exact absurd h hne
    · rw [if_neg hbr] at hc
      push_neg at hbr
      obtain ⟨hac, hnd, hne⟩ := hbr
      refine ⟨?_, ?_, ?_⟩
      · cases hfind : btreeFind? a.children a.index with
        | none =>
          rw [hfind] at hc
          simp only [Option.some.injEq] at hc
          subst hc
          rfl
        | some ci =>
          rw [hfind] at hc
          simp only [] at hc
          cases hci : t.nodes[ci]? with
          | none => rw [hci] at hc; cases hc
          | some c =>
            rw [hci] at hc
            simp only [] at hc
            cases hcc : completeF fuel t.nodes c with
            | none => rw [hcc] at hc; cases hc
            | some cc =>
              rw [hcc] at hc
              simp only [] at hc
              by_cases hcct : cc = true
              · rw [if_pos hcct] at hc
                simp only [Option.some.injEq] at hc
                subst hc
                rfl
              · rw [if_neg hcct] at hc
                simp only [Option.some.injEq] at hc
                subst hc
                rfl
      · intro htrue
        injection htrue with h
        exact absurd h hac
      · intro _
        constructor
        · intro hdisj
          rcases hdisj with h | h
          · exact absurd h hnd
          · exact absurd h hne
        · intro _ _
          constructor
          · intro hfind
            rw [hfind] at hc
            simp only [Option.some.injEq] at hc
            subst hc
            exact get_set_self hlt
          · intro ci c hfind hci
            rw [hfind] at hc
            simp only [] at hc
            rw [hci] at hc
            simp only [] at hc
            constructor
            · intro hcc
              rw [hcc] at hc
              simp only [if_true] at hc
              simp only [Option.some.injEq] at hc
              subst hc
              exact get_set_self hlt
            · intro hcc
              rw [hcc] at hc
              simp only [Bool.false_eq_true, if_false, Option.some.injEq] at hc
              subst hc
              exact ha

/-- Witness for C2 at a concrete mid-Discovery state. -/
theorem c2_close_decision_witness :
    ∃ t', EnumTracker.close_nodeF 5
        ⟨[⟨"A", 0, 0, 1, [], NodeState.Discovery, []⟩], [0]⟩ = some t' ∧
      t'.breadcrumbs = [] ∧
      t'.nodes[0]?
        = some ((⟨"A", 0, 0, 1, [], NodeState.Discovery, []⟩ : Node).advance_index false) := by
  have h := c2_close_decision 5
      ⟨[⟨"A", 0, 0, 1, [], NodeState.Discovery, []⟩], [0]⟩
      ⟨[⟨"A", 0, 1, 1, [], NodeState.Discovery, []⟩], []⟩
      0 ⟨"A", 0, 0, 1, [], NodeState.Discovery, []⟩ rfl rfl rfl
  exact ⟨_, rfl, h.1, (h.2.2 rfl).1 (Or.inl rfl)⟩


/-- The tracker state reached by one full pass over a 2-variant enum and
re-opening it: the root's cursor stands at 1 (the self-referential variant
about to be realized). -/
def c1_state : EnumTracker :=
  ⟨[⟨"enum1", 0, 1, 1, [(0, 1)], NodeState.Discovery, []⟩,
    ⟨"enum1child1", 1, 0, 0, [], NodeState.Completion, []⟩], [0]⟩

/-- C1 (amended): on re-entry (resolved id already on the open stack, its
current cursor not yet marked recursive), `open_node` mutates the node at
the resolved id itself (not necessarily the top of the open stack): it first
advances that node's cursor with the forced advance rule, then records the
POST-advance cursor in `recursive_variants` and inserts the self-loop child
entry at the POST-advance cursor; every other node is untouched and the id
is still pushed. -/
theorem c1_recursion_guard_amended (t t' : EnumTracker) (name : String) (m : Nat)
    (i : Nat) (p q : Node)
    (hex : t.node_exists name = true)
    (hfind : t.nodes.findIdx? (fun n => n.name == name) = some i)
    (hp : t.nodes[i]? = some p)
    (hmem : p.this ∈ t.breadcrumbs)
    (hq : t.nodes[p.this]? = some q)
    (hrv : q.index ∉ q.recursive_variants)
    (hopen : t.open_node name m = some t') :
    t'.breadcrumbs = t.breadcrumbs ++ [p.this] ∧
    ∃ q', t'.nodes[p.this]? = some q' ∧
      q'.index = (q.advance_index true).index ∧
      q'.state = (q.advance_index true).state ∧
      q'.recursive_variants = q.recursive_variants ++ [(q.advance_index true).index] ∧
      btreeFind? q'.children q'.index = some q.this ∧
      ∀ j, j ≠ p.this → t'.nodes[j]? = t.nodes[j]? := by
  have hlt : p.this < t.nodes.length := get_some_lt hq
  unfold EnumTracker.open_node EnumTracker.resolve_node EnumTracker.recursion_guard at hopen
  rw [hex] at hopen
  simp only [if_true] at hopen
  rw [hfind] at hopen
  simp only [] at hopen
  rw [hp] at hopen
  simp only [] at hopen
  rw [if_pos hmem] at hopen
  rw [hq] at hopen
  simp only [] at hopen
  rw [if_neg hrv] at hopen
  simp only [Option.some.injEq] at hopen
  subst hopen
  obtain ⟨hname, hthis, hmax, hch, hrvv⟩ := advance_index_fields q true
  refine ⟨rfl, ?_⟩
  refine ⟨_, get_set_self hlt, rfl, rfl, ?_, ?_, ?_⟩
  · rw [hrvv]
  · rw [hthis]
    exact btreeFind?_insert_self _ _ _
  · intro j hj
    exact get_set_ne (fun h => hj h.symm)

/-- Counterexample to C1 as stated: at re-entry the active cursor (the
self-referential variant) is 1, yet after the guard `recursive_variants` is
`[0]` (the post-advance cursor) and no child entry exists at index 1. -/
theorem c1_counterexample :
    ∃ t', runF 5 EnumTracker.new
        [Op.opn "enum1" 1, Op.opn "enum1child1" 0, Op.cls, Op.cls, Op.opn "enum1" 1]
        = some c1_state ∧
      c1_state.next_variant_index = some 1 ∧
      c1_state.open_node "enum1" 1 = some t' ∧
      (t'.nodes[0]?).map Node.recursive_variants = some [0] ∧
      (t'.nodes[0]?).map (fun n => btreeFind? n.children 1) = some none := by
  exact ⟨_, rfl, rfl, rfl, rfl, rfl⟩

/-- Witness for the amended C1 at the concrete re-entry state. -/
theorem c1_recursion_guard_amended_witness :
    ∃ t' q', c1_state.open_node "enum1" 1 = some t' ∧
      t'.breadcrumbs = c1_state.breadcrumbs ++ [0] ∧
      t'.nodes[0]? = some q' ∧ q'.index = 0 ∧ q'.state = NodeState.Completion ∧
      q'.recursive_variants = [0] ∧ btreeFind? q'.children 0 = some 0 := by
  have h := c1_recursion_guard_amended c1_state
      ⟨[⟨"enum1", 0, 0, 1, [(0, 0)], NodeState.Completion, [0]⟩,
        ⟨"enum1child1", 1, 0, 0, [], NodeState.Completion, []⟩], [0, 0]⟩
      "enum1" 1 0
      ⟨"enum1", 0, 1, 1, [(0, 1)], NodeState.Discovery, []⟩
      ⟨"enum1", 0, 1, 1, [(0, 1)], NodeState.Discovery, []⟩
      rfl rfl rfl (by decide) rfl (by decide) rfl
  obtain ⟨q', hq1, hq2, hq3, hq4, hq5, _⟩ := h.2
  rw [hq2] at hq5
  exact ⟨_, q', rfl, h.1, hq1, hq2, hq3, hq4, hq5⟩

/-- The reachable tracker state after `open("enum1",0); open("enum1",0)`: a
single node with a self-loop child entry, in Completion phase at its final
cursor. -/
def c5_node : Node := ⟨"enum1", 0, 0, 0, [(0, 0)], NodeState.Completion, [0]⟩

def c5_state : EnumTracker := ⟨[c5_node], [0, 0]⟩

/-- C5: `Node::complete` is reachable at a state where it never terminates:
after the two opens above, evaluating the completeness predicate of node 0
(as `all_complete` does), or calling `close`, recurses through the self-loop
child entry forever — no recursion depth (fuel) suffices.  The claim's
read-only part holds by construction (the predicate is a pure function),
but "safe to call and terminates on every reachable state" is false. -/
theorem c5_complete_diverges :
    runF 0 EnumTracker.new [Op.opn "enum1" 0, Op.opn "enum1" 0] = some c5_state ∧
    (∀ fuel, c5_state.all_completeF fuel = none) ∧
    (∀ fuel, c5_state.close_nodeF fuel = none) := by
  have key : ∀ f, completeF f [c5_node] c5_node = none := by
    intro f
    induction f with
    | zero => rfl
    | succ g ih =>
      have h1 : ¬ c5_node.state = NodeState.Completed := by simp [c5_node]
      have h2 : c5_node.index = c5_node.max_index ∧ c5_node.state = NodeState.Completion :=
        ⟨rfl, rfl⟩
      rw [completeF, if_neg h1, if_pos h2]
      rw [show c5_node.children = [(0, 0)] from rfl]
      rw [childrenCompleteF]
      rw [show ([c5_node][0]? : Option Node) = some c5_node from rfl]
      simp only []
      rw [ih]
  refine ⟨rfl, ?_, ?_⟩
  · intro fuel
    have h0 : c5_state.all_completeF fuel = completeF fuel [c5_node] c5_node := rfl
    rw [h0, key fuel]
  · intro fuel
    unfold EnumTracker.close_nodeF EnumTracker.advance_variantF
    rw [show c5_state.breadcrumbs.getLast? = some 0 from rfl]
    simp only []
    rw [show (c5_state.nodes[0]? : Option Node) = some c5_node from rfl]
    simp only []
    rw [show c5_state.nodes = [c5_node] from rfl]
    rw [key fuel]

/-- Shape of a successful `close`: the stack was non-empty and is popped,
and the node table is unchanged or has exactly the active node advanced. -/
theorem close_shape {fuel : Nat} {t t' : EnumTracker}
    (h : t.close_nodeF fuel = some t') :
    t.breadcrumbs ≠ [] ∧
    t'.breadcrumbs = t.breadcrumbs.dropLast ∧
    (t'.nodes = t.nodes ∨
     ∃ j a vc, t.breadcrumbs.getLast? = some j ∧ t.nodes[j]? = some a ∧
       t'.nodes = t.nodes.set j (a.advance_index vc)) := by
  unfold EnumTracker.close_nodeF EnumTracker.advance_variantF at h
  cases hl : t.breadcrumbs.getLast? with
  | none => rw [hl] at h; cases h
  | some j =>
    rw [hl] at h
    simp only [] at h
    have hne : t.breadcrumbs ≠ [] := by
      intro hx
      rw [hx] at hl
      cases hl
    cases ha : t.nodes[j]? with
    | none => rw [ha] at h; cases h
    | some a =>
      rw [ha] at h
      simp only [] at h
      cases hca : completeF fuel t.nodes a with
      | none => rw [hca] at h; cases h
      | some ac =>
        rw [hca] at h
        simp only [] at h
        by_cases hbr : ac = true ∨ a.state = NodeState.Discovery ∨ a.children = []
        · rw [if_pos hbr] at h
          simp only [Option.some.injEq] at h
          subst h
          exact ⟨hne, rfl, Or.inr ⟨j, a, false, rfl, ha, rfl⟩⟩
        · rw [if_neg hbr] at h
          cases hfind : btreeFind? a.children a.index with
          | none =>
            rw [hfind] at h
            simp only [Option.some.injEq] at h
            subst h
            exact ⟨hne, rfl, Or.inr ⟨j, a, false, rfl, ha, rfl⟩⟩
          | some ci =>
            rw [hfind] at h
            simp only [] at h
            cases hci : t.nodes[ci]? with
            | none => rw [hci] at h; cases h
            | some c =>
              rw [hci] at h
              simp only [] at h
              cases hcc : completeF fuel t.nodes c with
              | none => rw [hcc] at h; cases h
              | some cc =>
                rw [hcc] at h
                simp only [] at h
                by_cases hcct : cc = true
                · rw [if_pos hcct] at h
                  simp only [Option.some.injEq] at h
                  subst h
                  exact ⟨hne, rfl, Or.inr ⟨j, a, true, rfl, ha, rfl⟩⟩
                · rw [if_neg hcct] at h
                  simp only [Option.some.injEq] at h
                  subst h
                  exact ⟨hne, rfl, Or.inl rfl⟩

/-- A successful `open_node` factors into resolve, guard and push. -/
theorem open_node_split {t t' : EnumTracker} {name : String} {m : Nat}
    (h : t.open_node name m = some t') :
    ∃ t1 id t2, t.resolve_node name m = some (t1, id) ∧
      t1.recursion_guard id = some t2 ∧
      t' = { t2 with breadcrumbs := t2.breadcrumbs ++ [id] } := by
  unfold EnumTracker.open_node at h
  cases hr : t.resolve_node name m with
  | none => rw [hr] at h; cases h
  | some r =>
    obtain ⟨t1, id⟩ := r
    rw [hr] at h
    simp only [] at h
    cases hg : t1.recursion_guard id with
    | none => rw [hg] at h; cases h
    | some t2 =>
      rw [hg] at h
      simp only [Option.some.injEq] at h
      exact ⟨t1, id, t2, rfl, hg, h.symm⟩

/-- Shape of a successful resolve: either the name exists and the state is
untouched (the stored `this` of the first node with that name is returned),
or a fresh node is appended, possibly with a child entry inserted into the
node at the last breadcrumb. -/
theorem resolve_node_facts {t t1 : EnumTracker} {name : String} {m : Nat} {id : Nat}
    (h : t.resolve_node name m = some (t1, id)) :
    t1.breadcrumbs = t.breadcrumbs ∧
    ((t.node_exists name = true ∧ t1 = t ∧
        ∃ i p, t.nodes.findIdx? (fun n => n.name == name) = some i ∧
          t.nodes[i]? = some p ∧ id = p.this) ∨
     (t.node_exists name = false ∧ id = t.nodes.length ∧
        (t1.nodes = t.nodes ++ [{ Node.new name m with this := t.nodes.length }] ∨
         ∃ pidx parent,
           t.breadcrumbs.getLast? = some pidx ∧
           (t.nodes ++ [{ Node.new name m with this := t.nodes.length }])[pidx]?
             = some parent ∧
           t1.nodes = (t.nodes ++ [{ Node.new name m with this := t.nodes.length }]).set pidx
             { parent with
               children := btreeInsert parent.children parent.index t.nodes.length }))) := by
  unfold EnumTracker.resolve_node at h
  by_cases hex : t.node_exists name
  · rw [if_pos hex] at h
    cases hf : t.nodes.findIdx? (fun n => n.name == name) with
    | none => rw [hf] at h; cases h
    | some i =>
      rw [hf] at h
      simp only [] at h
      cases hp : t.nodes[i]? with
      | none => rw [hp] at h; cases h
      | some p =>
        rw [hp] at h
        simp only [Option.some.injEq, Prod.mk.injEq] at h
        obtain ⟨h1, h2⟩ := h
        subst h1
        subst h2
        exact ⟨rfl, Or.inl ⟨hex, rfl, i, p, rfl, hp, rfl⟩⟩
  · rw [if_neg hex] at h
    simp only [] at h
    by_cases hlen : (t.nodes ++ [{ Node.new name m with this := t.nodes.length }]).length > 1
    · rw [if_pos hlen] at h
      cases hl : t.breadcrumbs.getLast? with
      | none => rw [hl] at h; cases h
      | some pidx =>
        rw [hl] at h
        simp only [] at h
        cases hpp : (t.nodes ++ [{ Node.new name m with this := t.nodes.length }])[pidx]? with
        | none => rw [hpp] at h; cases h
        | some parent =>
          rw [hpp] at h
          simp only [Option.some.injEq, Prod.mk.injEq] at h
          obtain ⟨h1, h2⟩ := h
          subst h2
          rw [← h1]
          exact ⟨rfl, Or.inr ⟨by simpa using hex, rfl,
            Or.inr ⟨pidx, parent, rfl, hpp, rfl⟩⟩⟩
    · rw [if_neg hlen] at h
      simp only [Option.some.injEq, Prod.mk.injEq] at h
      obtain ⟨h1, h2⟩ := h
      subst h2
      rw [← h1]
      exact ⟨rfl, Or.inr ⟨by simpa using hex, rfl, Or.inl rfl⟩⟩

/-- Shape of a successful recursion guard: either nothing changes, or the
node at the resolved id is advanced and the self-loop entry recorded. -/
theorem recursion_guard_facts {t t2 : EnumTracker} {idx : Nat}
    (h : t.recursion_guard idx = some t2) :
    t2.breadcrumbs = t.breadcrumbs ∧
    (t2.nodes = t.nodes ∨
     ∃ q, t.nodes[idx]? = some q ∧
       t2.nodes = t.nodes.set idx
         { q.advance_index true with
           children := btreeInsert (q.advance_index true).children
             (q.advance_index true).index (q.advance_index true).this
           recursive_variants := (q.advance_index true).recursive_variants
             ++ [(q.advance_index true).index] }) := by
  unfold EnumTracker.recursion_guard at h
  by_cases hmem : idx ∈ t.breadcrumbs
  · rw [if_pos hmem] at h
    cases hq : t.nodes[idx]? with
    | none => rw [hq] at h; cases h
    | some q =>
      rw [hq] at h
      simp only [] at h
      by_cases hrv : q.index ∈ q.recursive_variants
      · rw [if_pos hrv] at h
        simp only [Option.some.injEq] at h
        subst h
        exact ⟨rfl, Or.inl rfl⟩
      · rw [if_neg hrv] at h
        simp only [Option.some.injEq] at h
        subst h
        exact ⟨rfl, Or.inr ⟨q, rfl, rfl⟩⟩
  · rw [if_neg hmem] at h
    simp only [Option.some.injEq] at h
    subst h
    exact ⟨rfl, Or.inl rfl⟩

/-- C6 (amended): a Completed node is frozen under `close` entirely (the
node value is unchanged), and under `open` its cursor and phase (and name,
max_index, self id) are unchanged — but `open` may still alter its
`children` and `recursive_variants` (as parent of a newly created node, or
through the recursion guard).  `next_variant_index` and `all_complete` are
embedded as pure functions because their Rust bodies perform no writes. -/
theorem c6_completed_frozen (fuel : Nat) (t : EnumTracker) (i : Nat) (n : Node)
    (hn : t.nodes[i]? = some n) (hcomp : n.state = NodeState.Completed) :
    (∀ t', t.close_nodeF fuel = some t' → t'.nodes[i]? = some n) ∧
    (∀ name m t', t.open_node name m = some t' →
       ∃ n', t'.nodes[i]? = some n' ∧ n'.index = n.index ∧
         n'.state = NodeState.Completed ∧ n'.name = n.name ∧
         n'.max_index = n.max_index ∧ n'.this = n.this) := by
  have hlt : i < t.nodes.length := get_some_lt hn
  constructor
  · intro t' h
    obtain ⟨-, -, hnodes⟩ := close_shape h
    rcases hnodes with heq | ⟨j, a, vc, hl, ha, heq⟩
    · rw [heq]; exact hn
    · rw [heq]
      by_cases hij : j = i
      · subst hij
        rw [ha] at hn
        injection hn with hn
        subst hn
        rw [advance_index_completed _ vc hcomp]
        exact get_set_self hlt
      · rw [get_set_ne hij]
        exact hn
  · intro name m t' h
    obtain ⟨t1, id, t2, hres, hguard, hpush⟩ := open_node_split h
    obtain ⟨-, hres2⟩ := resolve_node_facts hres
    have step1 : ∃ n1, t1.nodes[i]? = some n1 ∧ n1.index = n.index ∧
        n1.state = NodeState.Completed ∧ n1.name = n.name ∧
        n1.max_index = n.max_index ∧ n1.this = n.this := by
      rcases hres2 with ⟨-, ht1, -⟩ | ⟨-, -, hnew⟩
      · subst ht1
        exact ⟨n, hn, rfl, hcomp, rfl, rfl, rfl⟩
      · rcases hnew with heq | ⟨pidx, parent, hl, hpp, heq⟩
        · rw [heq, get_append_left _ hlt]
          exact ⟨n, hn, rfl, hcomp, rfl, rfl, rfl⟩
        · rw [heq]
          by_cases hpi : pidx = i
          · subst hpi
            rw [get_append_left _ hlt] at hpp
            rw [hpp] at hn
            injection hn with hn
            subst hn
            refine ⟨_, get_set_self ?_, rfl, hcomp, rfl, rfl, rfl⟩
            simpa using Nat.lt_succ_of_lt hlt
          · rw [get_set_ne hpi, get_append_left _ hlt]
            exact ⟨n, hn, rfl, hcomp, rfl, rfl, rfl⟩
    obtain ⟨n1, hn1, hn1i, hn1s, hn1n, hn1m, hn1t⟩ := step1
    obtain ⟨-, hg2⟩ := recursion_guard_facts hguard
    have step2 : ∃ n2, t2.nodes[i]? = some n2 ∧ n2.index = n.index ∧
        n2.state = NodeState.Completed ∧ n2.name = n.name ∧
        n2.max_index = n.max_index ∧ n2.this = n.this := by
      rcases hg2 with heq | ⟨q, hq, heq⟩
      · rw [heq]
        exact ⟨n1, hn1, hn1i, hn1s, hn1n, hn1m, hn1t⟩
      · rw [heq]
        by_cases hqi : id = i
        · subst hqi
          rw [hq] at hn1
          injection hn1 with hn1
          subst hn1
          have hadv : q.advance_index true = q := advance_index_completed q true hn1s
          refine ⟨_, get_set_self (get_some_lt hq), ?_, ?_, ?_, ?_, ?_⟩ <;>
            simp only [hadv] <;> assumption
        · rw [get_set_ne hqi]
          exact ⟨n1, hn1, hn1i, hn1s, hn1n, hn1m, hn1t⟩
    obtain ⟨n2, hn2, h2i, h2s, h2n, h2m, h2t⟩ := step2
    subst hpush
    exact ⟨n2, hn2, h2i, h2s, h2n, h2m, h2t⟩

/-- A reachable state whose only node is Completed and open. -/
def c6_state : EnumTracker := ⟨[⟨"A", 0, 0, 0, [], NodeState.Completed, []⟩], [0]⟩

/-- Counterexample to C6 as stated: node "A" is Completed with empty
children, yet a subsequent `open` of a fresh name "B" inserts a child entry
into it — the children map of a Completed node is not frozen. -/
theorem c6_counterexample :
    ∃ t2, runF 5 EnumTracker.new
        [Op.opn "A" 0, Op.cls, Op.opn "A" 0, Op.cls, Op.opn "A" 0] = some c6_state ∧
      (c6_state.nodes[0]?).map (fun n => (n.state, n.children))
        = some (NodeState.Completed, []) ∧
      c6_state.open_node "B" 0 = some t2 ∧
      (t2.nodes[0]?).map Node.children = some [(0, 1)] := by
  exact ⟨_, rfl, rfl, rfl, rfl⟩

/-- Witness for the amended C6 at the concrete Completed state. -/
theorem c6_completed_frozen_witness :
    (∃ t', c6_state.close_nodeF 5 = some t' ∧
       t'.nodes[0]? = some ⟨"A", 0, 0, 0, [], NodeState.Completed, []⟩) ∧
    (∃ t' n', c6_state.open_node "B" 0 = some t' ∧ t'.nodes[0]? = some n' ∧
       n'.index = 0 ∧ n'.state = NodeState.Completed) := by
  have h := c6_completed_frozen 5 c6_state 0
      ⟨"A", 0, 0, 0, [], NodeState.Completed, []⟩ rfl rfl
  constructor
  · exact ⟨⟨[⟨"A", 0, 0, 0, [], NodeState.Completed, []⟩], []⟩,
      rfl, h.1 _ rfl⟩
  · obtain ⟨n', h1, h2, h3, -⟩ :=
      h.2 "B" 0
        ⟨[⟨"A", 0, 0, 0, [(0, 1)], NodeState.Completed, []⟩,
          ⟨"B", 1, 0, 0, [], NodeState.Discovery, []⟩], [0, 1]⟩ rfl
    exact ⟨_, n', rfl, h1, h2, h3⟩

theorem mem_dropLast {α : Type} {l : List α} {x : α} (h : x ∈ l.dropLast) : x ∈ l := by
  induction l with
  | nil => simp at h
  | cons a l ih =>
    cases l with
    | nil => simp at h
    | cons b l' =>
      rw [List.dropLast_cons₂] at h
      rcases List.mem_cons.mp h with h1 | h1
      · exact h1 ▸ List.mem_cons_self _ _
      · exact List.mem_cons_of_mem _ (ih h1)

theorem mem_get {α : Type} {l : List α} {x : α} (h : x ∈ l) : ∃ i : Nat, l[i]? = some x := by
  induction l with
  | nil => simp at h
  | cons a l ih =>
    rcases List.mem_cons.mp h with h1 | h1
    · exact ⟨0, by simp [h1]⟩
    · obtain ⟨i, hi⟩ := ih h1
      exact ⟨i + 1, by simpa using hi⟩

theorem get_map {α β : Type} {l : List α} {i : Nat} {x : α} (f : α → β)
    (h : l[i]? = some x) : (l.map f)[i]? = some (f x) := by
  induction l generalizing i with
  | nil => simp at h
  | cons a l ih =>
    cases i with
    | zero => simp_all
    | succ j => simpa using ih (by simpa using h)

theorem get_append_len {α : Type} (l : List α) (x : α) : (l ++ [x])[l.length]? = some x := by
  induction l with
  | nil => simp
  | cons a l ih =>
    simp only [List.cons_append, List.length_cons, List.getElem?_cons_succ]
    exact ih

theorem node_exists_iff_mem {t : EnumTracker} {name : String} :
    t.node_exists name = true ↔ name ∈ t.nodes.map Node.name := by
  unfold EnumTracker.node_exists
  rw [List.any_eq_true]
  constructor
  · rintro ⟨n, hn, hb⟩
    exact List.mem_map.mpr ⟨n, hn, beq_iff_eq.mp hb⟩
  · intro h
    obtain ⟨n, hn, heq⟩ := List.mem_map.mp h
    exact ⟨n, hn, beq_iff_eq.mpr heq⟩

/-- Invariant of every reachable tracker state: node names are pairwise
distinct, each node's stored `this` equals its position, breadcrumbs are
valid positions, and every cursor is bounded by its `max_index`. -/
structure TrackerInv (t : EnumTracker) : Prop where
  names : (t.nodes.map Node.name).Nodup
  this_eq : ∀ (j : Nat) (n : Node), t.nodes[j]? = some n → n.this = j
  bc_lt : ∀ i ∈ t.breadcrumbs, i < t.nodes.length
  idx_le : ∀ n ∈ t.nodes, n.index ≤ n.max_index

theorem inv_new : TrackerInv EnumTracker.new := by
  constructor <;> simp [EnumTracker.new]

theorem inv_close {fuel : Nat} {t t' : EnumTracker} (hI : TrackerInv t)
    (h : t.close_nodeF fuel = some t') : TrackerInv t' := by
  obtain ⟨hne, hbcr, hnodes⟩ := close_shape h
  rcases hnodes with heq | ⟨j, a, vc, hl, ha, heq⟩
  · constructor
    · rw [heq]; exact hI.names
    · intro j n hjn; rw [heq] at hjn; exact hI.this_eq j n hjn
    · intro i hi
      rw [hbcr] at hi
      rw [heq]
      exact hI.bc_lt i (mem_dropLast hi)
    · intro n hn; rw [heq] at hn; exact hI.idx_le n hn
  · have hjlt : j < t.nodes.length := get_some_lt ha
    obtain ⟨hfn, hft, hfm, -, -⟩ := advance_index_fields a vc
    constructor
    · rw [heq, map_set_eq Node.name ha hfn]; exact hI.names
    · intro j' n' hj'
      rw [heq] at hj'
      by_cases hjj : j = j'
      · subst hjj
        rw [get_set_self hjlt] at hj'
        injection hj' with hj'
        subst hj'
        rw [hft]
        exact hI.this_eq j a ha
      · rw [get_set_ne hjj] at hj'
        exact hI.this_eq j' n' hj'
    · intro i hi
      rw [hbcr] at hi
      rw [heq, List.length_set]
      exact hI.bc_lt i (mem_dropLast hi)
    · intro n' hn'
      rw [heq] at hn'
      obtain ⟨k, hk⟩ := mem_get hn'
      by_cases hjk : j = k
      · subst hjk
        rw [get_set_self hjlt] at hk
        injection hk with hk
        subst hk
        exact advance_index_le a vc (hI.idx_le a (get_mem ha))
      · rw [get_set_ne hjk] at hk
        exact hI.idx_le n' (get_mem hk)

theorem inv_resolve {t t1 : EnumTracker} {name : String} {m id : Nat}
    (hI : TrackerInv t) (h : t.resolve_node name m = some (t1, id)) :
    TrackerInv t1 ∧ id < t1.nodes.length ∧ t.nodes.length ≤ t1.nodes.length ∧
      t1.breadcrumbs = t.breadcrumbs := by
  obtain ⟨hbc, hcases⟩ := resolve_node_facts h
  rcases hcases with ⟨hex, ht1, i, p, hf, hp, hid⟩ | ⟨hex, hid, hshape⟩
  · subst ht1
    refine ⟨hI, ?_, le_refl _, rfl⟩
    rw [hid, hI.this_eq i p hp]
    exact get_some_lt hp
  · have hnm : name ∉ t.nodes.map Node.name := by
      intro hmem
      rw [← node_exists_iff_mem] at hmem
      rw [hex] at hmem
      cases hmem
    have mapN : ((t.nodes ++ [{ Node.new name m with this := t.nodes.length }]).map Node.name)
        = t.nodes.map Node.name ++ [name] := by
      simp [Node.new]
    have namesN : ((t.nodes ++ [{ Node.new name m with this := t.nodes.length }]).map
        Node.name).Nodup := by
      rw [mapN]
      refine List.Nodup.append hI.names (List.nodup_singleton _) ?_
      intro x hx hx'
      rw [List.mem_singleton] at hx'
      subst hx'
      exact hnm hx
    have thisN : ∀ (j : Nat) (n : Node),
        (t.nodes ++ [{ Node.new name m with this := t.nodes.length }])[j]? = some n →
        n.this = j := by
      intro j n hj
      rcases Nat.lt_trichotomy j t.nodes.length with hlt | heqj | hgt
      · rw [get_append_left _ hlt] at hj
        exact hI.this_eq j n hj
      · subst heqj
        rw [get_append_len] at hj
        injection hj with hj
        subst hj
        rfl
      · have hlen : (t.nodes ++ [{ Node.new name m with this := t.nodes.length }]).length ≤ j := by
          simp
          omega
        rw [List.getElem?_eq_none hlen] at hj
        cases hj
    have idxN : ∀ n ∈ t.nodes ++ [{ Node.new name m with this := t.nodes.length }],
        n.index ≤ n.max_index := by
      intro n hn
      rcases List.mem_append.mp hn with h1 | h1
      · exact hI.idx_le n h1
      · rw [List.mem_singleton] at h1
        subst h1
        exact Nat.zero_le _
    rcases hshape with heq | ⟨pidx, parent, hl, hpp, heq⟩
    · refine ⟨⟨?_, ?_, ?_, ?_⟩, ?_, ?_, hbc⟩
      · rw [heq]; exact namesN
      · intro j n hj; rw [heq] at hj; exact thisN j n hj
      · intro i hi
        rw [hbc] at hi
        have := hI.bc_lt i hi
        rw [heq]
        simp only [List.length_append, List.length_cons, List.length_nil]
        omega
      · intro n hn; rw [heq] at hn; exact idxN n hn
      · rw [hid, heq]
        simp
      · rw [heq]
        simp
    · have hplt : pidx < (t.nodes ++ [{ Node.new name m with this := t.nodes.length }]).length :=
        get_some_lt hpp
      refine ⟨⟨?_, ?_, ?_, ?_⟩, ?_, ?_, hbc⟩
      · have hf1 : ({ parent with children := btreeInsert parent.children parent.index t.nodes.length } : Node).name = parent.name := rfl
        rw [heq, map_set_eq Node.name hpp hf1]
        exact namesN
      · intro j n hj
        rw [heq] at hj
        by_cases hpj : pidx = j
        · subst hpj
          rw [get_set_self hplt] at hj
          injection hj with hj
          subst hj
          exact thisN pidx parent hpp
        · rw [get_set_ne hpj] at hj
          exact thisN j n hj
      · intro i hi
        rw [hbc] at hi
        have := hI.bc_lt i hi
        rw [heq, List.length_set]
        simp only [List.length_append, List.length_cons, List.length_nil]
        omega
      · intro n hn
        rw [heq] at hn
        obtain ⟨k, hk⟩ := mem_get hn
        by_cases hpk : pidx = k
        · subst hpk
          rw [get_set_self hplt] at hk
          injection hk with hk
          subst hk
          exact idxN parent (get_mem hpp)
        · rw [get_set_ne hpk] at hk
          exact idxN n (get_mem hk)
      · rw [hid, heq, List.length_set]
        simp
      · rw [heq, List.length_set]
        simp

theorem inv_guard {t t2 : EnumTracker} {idx : Nat} (hI : TrackerInv t)
    (h : t.recursion_guard idx = some t2) :
    TrackerInv t2 ∧ t2.nodes.length = t.nodes.length ∧ t2.breadcrumbs = t.breadcrumbs := by
  obtain ⟨hbc, hcases⟩ := recursion_guard_facts h
  rcases hcases with heq | ⟨q, hq, heq⟩
  · refine ⟨⟨?_, ?_, ?_, ?_⟩, ?_, hbc⟩
    · rw [heq]; exact hI.names
    · intro j n hj; rw [heq] at hj; exact hI.this_eq j n hj
    · intro i hi
      rw [hbc] at hi
      rw [heq]
      exact hI.bc_lt i hi
    · intro n hn; rw [heq] at hn; exact hI.idx_le n hn
    · rw [heq]
  · have hqlt : idx < t.nodes.length := get_some_lt hq
    obtain ⟨hfn, hft, hfm, -, -⟩ := advance_index_fields q true
    refine ⟨⟨?_, ?_, ?_, ?_⟩, ?_, hbc⟩
    · have hf1 : ({ q.advance_index true with children := btreeInsert (q.advance_index true).children (q.advance_index true).index (q.advance_index true).this, recursive_variants := (q.advance_index true).recursive_variants ++ [(q.advance_index true).index] } : Node).name = q.name := hfn
      rw [heq, map_set_eq Node.name hq hf1]
      exact hI.names
    · intro j n hj
      rw [heq] at hj
      by_cases hij : idx = j
      · subst hij
        rw [get_set_self hqlt] at hj
        injection hj with hj
        subst hj
        rw [hft]
        exact hI.this_eq idx q hq
      · rw [get_set_ne hij] at hj
        exact hI.this_eq j n hj
    · intro i hi
      rw [hbc] at hi
      rw [heq, List.length_set]
      exact hI.bc_lt i hi
    · intro n hn
      rw [heq] at hn
      obtain ⟨k, hk⟩ := mem_get hn
      by_cases hik : idx = k
      · subst hik
        rw [get_set_self hqlt] at hk
        injection hk with hk
        subst hk
        exact advance_index_le q true (hI.idx_le q (get_mem hq))
      · rw [get_set_ne hik] at hk
        exact hI.idx_le n (get_mem hk)
    · rw [heq, List.length_set]

theorem inv_open {t t' : EnumTracker} {name : String} {m : Nat} (hI : TrackerInv t)
    (h : t.open_node name m = some t') : TrackerInv t' := by
  obtain ⟨t1, id, t2, hres, hguard, hpush⟩ := open_node_split h
  obtain ⟨hI1, hidlt, hlen1, hbc1⟩ := inv_resolve hI hres
  obtain ⟨hI2, hlen2, hbc2⟩ := inv_guard hI1 hguard
  subst hpush
  refine ⟨hI2.names, hI2.this_eq, ?_, hI2.idx_le⟩
  intro i hi
  have hi' : i ∈ t2.breadcrumbs ++ [id] := hi
  rcases List.mem_append.mp hi' with h1 | h1
  · exact hI2.bc_lt i h1
  · rw [List.mem_singleton] at h1
    subst h1
    show i < t2.nodes.length
    rw [hlen2]
    exact hidlt

theorem inv_step {fuel : Nat} {t t' : EnumTracker} {op : Op} (hI : TrackerInv t)
    (h : stepF fuel t op = some t') : TrackerInv t' := by
  cases op with
  | opn name m => exact inv_open hI h
  | cls => exact inv_close hI h

theorem inv_run {fuel : Nat} : ∀ (ops : List Op) (t0 t : EnumTracker),
    TrackerInv t0 → runF fuel t0 ops = some t → TrackerInv t
  | [], t0, t, hI, h => by
    rw [runF] at h
    injection h with h
    exact h ▸ hI
  | op :: ops, t0, t, hI, h => by
    rw [runF] at h
    cases hs : stepF fuel t0 op with
    | none => rw [hs] at h; cases h
    | some t1 =>
      rw [hs] at h
      exact inv_run ops t1 t (inv_step hI hs) h

/-- Names of the enums opened by a call sequence, in order. -/
def openedNames : List Op → List String
  | [] => []
  | Op.opn n _ :: ops => n :: openedNames ops
  | Op.cls :: ops => openedNames ops

/-- Number of `open` calls in a sequence. -/
def countOpens : List Op → Nat
  | [] => 0
  | Op.opn _ _ :: ops => countOpens ops + 1
  | Op.cls :: ops => countOpens ops

/-- Number of `close` calls in a sequence. -/
def countCloses : List Op → Nat
  | [] => 0
  | Op.opn _ _ :: ops => countCloses ops
  | Op.cls :: ops => countCloses ops + 1

/-- How the list of node names evolves along a call sequence: each `open`
appends the name unless it is already present. -/
def namesFold : List Op → List String → List String
  | [], ns => ns
  | Op.opn n _ :: ops, ns => namesFold ops (if n ∈ ns then ns else ns ++ [n])
  | Op.cls :: ops, ns => namesFold ops ns

theorem open_push {t t' : EnumTracker} {name : String} {m : Nat}
    (h : t.open_node name m = some t') :
    ∃ id, t'.breadcrumbs = t.breadcrumbs ++ [id] := by
  obtain ⟨t1, id, t2, hres, hguard, hpush⟩ := open_node_split h
  obtain ⟨hbc1, -⟩ := resolve_node_facts hres
  obtain ⟨hbc2, -⟩ := recursion_guard_facts hguard
  subst hpush
  refine ⟨id, ?_⟩
  show t2.breadcrumbs ++ [id] = t.breadcrumbs ++ [id]
  rw [hbc2, hbc1]

theorem open_names {t t' : EnumTracker} {name : String} {m : Nat}
    (h : t.open_node name m = some t') :
    t'.nodes.map Node.name =
      (if name ∈ t.nodes.map Node.name then t.nodes.map Node.name
       else t.nodes.map Node.name ++ [name]) := by
  obtain ⟨t1, id, t2, hres, hguard, hpush⟩ := open_node_split h
  obtain ⟨-, hres2⟩ := resolve_node_facts hres
  have h1 : t1.nodes.map Node.name =
      (if name ∈ t.nodes.map Node.name then t.nodes.map Node.name
       else t.nodes.map Node.name ++ [name]) := by
    rcases hres2 with ⟨hex, ht1, -⟩ | ⟨hex, -, hshape⟩
    · subst ht1
      rw [if_pos (node_exists_iff_mem.mp hex)]
    · have hnm : name ∉ t.nodes.map Node.name := by
        intro hmem
        rw [← node_exists_iff_mem] at hmem
        rw [hex] at hmem
        cases hmem
      rw [if_neg hnm]
      rcases hshape with heq | ⟨pidx, parent, hl, hpp, heq⟩
      · rw [heq]
        simp [Node.new]
      · have hf1 : ({ parent with children := btreeInsert parent.children parent.index t.nodes.length } : Node).name = parent.name := rfl
        rw [heq, map_set_eq Node.name hpp hf1]
        simp [Node.new]
  have h2 : t2.nodes.map Node.name = t1.nodes.map Node.name := by
    obtain ⟨-, hg⟩ := recursion_guard_facts hguard
    rcases hg with heq | ⟨q, hq, heq⟩
    · rw [heq]
    · have hf1 : ({ q.advance_index true with children := btreeInsert (q.advance_index true).children (q.advance_index true).index (q.advance_index true).this, recursive_variants := (q.advance_index true).recursive_variants ++ [(q.advance_index true).index] } : Node).name = q.name := (advance_index_fields q true).1
      rw [heq, map_set_eq Node.name hq hf1]
  subst hpush
  show t2.nodes.map Node.name = _
  rw [h2, h1]

theorem close_names {fuel : Nat} {t t' : EnumTracker}
    (h : t.close_nodeF fuel = some t') :
    t'.nodes.map Node.name = t.nodes.map Node.name := by
  obtain ⟨-, -, hnodes⟩ := close_shape h
  rcases hnodes with heq | ⟨j, a, vc, hl, ha, heq⟩
  · rw [heq]
  · rw [heq, map_set_eq Node.name ha (advance_index_fields a vc).1]

theorem run_names {fuel : Nat} : ∀ (ops : List Op) (t0 t : EnumTracker),
    runF fuel t0 ops = some t →
    t.nodes.map Node.name = namesFold ops (t0.nodes.map Node.name)
  | [], t0, t, h => by
    rw [runF] at h
    injection h with h
    subst h
    rfl
  | Op.opn name m :: ops, t0, t, h => by
    rw [runF] at h
    cases hs : stepF fuel t0 (Op.opn name m) with
    | none => rw [hs] at h; cases h
    | some t1 =>
      rw [hs] at h
      have ih := run_names ops t1 t h
      rw [namesFold, ← open_names hs]
      exact ih
  | Op.cls :: ops, t0, t, h => by
    rw [runF] at h
    cases hs : stepF fuel t0 Op.cls with
    | none => rw [hs] at h; cases h
    | some t1 =>
      rw [hs] at h
      have ih := run_names ops t1 t h
      rw [namesFold, ← close_names hs]
      exact ih

theorem namesFold_nodup : ∀ (ops : List Op) (ns : List String),
    ns.Nodup → (namesFold ops ns).Nodup
  | [], ns, h => h
  | Op.opn n _ :: ops, ns, h => by
    rw [namesFold]
    by_cases hn : n ∈ ns
    · rw [if_pos hn]
      exact namesFold_nodup ops ns h
    · rw [if_neg hn]
      refine namesFold_nodup ops _ ?_
      refine List.Nodup.append h (List.nodup_singleton _) ?_
      intro x hx hx'
      rw [List.mem_singleton] at hx'
      subst hx'
      exact hn hx
  | Op.cls :: ops, ns, h => by
    rw [namesFold]
    exact namesFold_nodup ops ns h

theorem namesFold_toFinset : ∀ (ops : List Op) (ns : List String),
    (namesFold ops ns).toFinset = ns.toFinset ∪ (openedNames ops).toFinset
  | [], ns => by simp [namesFold, openedNames]
  | Op.opn n _ :: ops, ns => by
    rw [namesFold, openedNames, namesFold_toFinset ops]
    by_cases hn : n ∈ ns
    · rw [if_pos hn]
      ext x
      simp only [Finset.mem_union, List.mem_toFinset, List.toFinset_cons, Finset.mem_insert]
      constructor
      · rintro (h1 | h1)
        · exact Or.inl h1
        · exact Or.inr (Or.inr h1)
      · rintro (h1 | h1 | h1)
        · exact Or.inl h1
        · exact Or.inl (h1 ▸ hn)
        · exact Or.inr h1
    · rw [if_neg hn]
      ext x
      simp only [Finset.mem_union, List.mem_toFinset, List.toFinset_cons, Finset.mem_insert,
        List.mem_append, List.mem_singleton]
      tauto
  | Op.cls :: ops, ns => by
    rw [namesFold, openedNames]
    exact namesFold_toFinset ops ns

theorem run_bc_length {fuel : Nat} : ∀ (ops : List Op) (t0 t : EnumTracker),
    runF fuel t0 ops = some t →
    t.breadcrumbs.length + countCloses ops = t0.breadcrumbs.length + countOpens ops
  | [], t0, t, h => by
    rw [runF] at h
    injection h with h
    subst h
    rw [countOpens, countCloses]
  | Op.opn name m :: ops, t0, t, h => by
    rw [runF] at h
    cases hs : stepF fuel t0 (Op.opn name m) with
    | none => rw [hs] at h; cases h
    | some t1 =>
      rw [hs] at h
      have ih := run_bc_length ops t1 t h
      obtain ⟨id, hpush⟩ := open_push hs
      have hlen : t1.breadcrumbs.length = t0.breadcrumbs.length + 1 := by
        rw [hpush]
        simp
      rw [countOpens, countCloses]
      omega
  | Op.cls :: ops, t0, t, h => by
    rw [runF] at h
    cases hs : stepF fuel t0 Op.cls with
    | none => rw [hs] at h; cases h
    | some t1 =>
      rw [hs] at h
      have ih := run_bc_length ops t1 t h
      obtain ⟨hne, hpop, -⟩ := close_shape hs
      have hge : 1 ≤ t0.breadcrumbs.length := by
        cases hcc : t0.breadcrumbs with
        | nil => exact absurd hcc hne
        | cons a l => simp [hcc]
      have hlen : t1.breadcrumbs.length = t0.breadcrumbs.length - 1 := by
        rw [hpop, List.length_dropLast]
      rw [countOpens, countCloses]
      omega

/-- C7: after any successful open/close sequence from a fresh tracker the
node names are pairwise distinct, and the table length equals the number of
distinct names ever opened. -/
theorem c7_unique_names (fuel : Nat) (ops : List Op) (t : EnumTracker)
    (h : runF fuel EnumTracker.new ops = some t) :
    (t.nodes.map Node.name).Nodup ∧
    t.nodes.length = (openedNames ops).dedup.length := by
  have hnames : t.nodes.map Node.name = namesFold ops [] := run_names ops EnumTracker.new t h
  have hnod0 : (namesFold ops []).Nodup := namesFold_nodup ops [] (by simp)
  refine ⟨hnames ▸ hnod0, ?_⟩
  have hlen : t.nodes.length = (t.nodes.map Node.name).length := by
    rw [List.length_map]
  rw [hlen, hnames]
  have h1 : (namesFold ops []).toFinset = (openedNames ops).toFinset := by
    rw [namesFold_toFinset]
    simp
  calc (namesFold ops []).length
      = (namesFold ops []).toFinset.card := (List.toFinset_card_of_nodup hnod0).symm
    _ = (openedNames ops).toFinset.card := by rw [h1]
    _ = (openedNames ops).dedup.length := rfl

/-- Witness for C7 at a concrete two-pass sequence re-opening a name. -/
theorem c7_unique_names_witness :
    ∃ t, runF 5 EnumTracker.new
        [Op.opn "A" 1, Op.opn "B" 0, Op.cls, Op.cls, Op.opn "A" 1, Op.cls] = some t ∧
      (t.nodes.map Node.name).Nodup ∧ t.nodes.length = 2 := by
  have h := c7_unique_names 5
      [Op.opn "A" 1, Op.opn "B" 0, Op.cls, Op.cls, Op.opn "A" 1, Op.cls]
      ⟨[⟨"A", 0, 0, 1, [(0, 1)], NodeState.Completion, []⟩,
        ⟨"B", 1, 0, 0, [], NodeState.Completion, []⟩], []⟩ rfl
  exact ⟨_, rfl, h.1, h.2⟩

/-- C9: every reachable node satisfies cursor ≤ max_index, and while an
occurrence is open `next_variant_index` returns the top node's cursor, which
is within 0..=max_index. -/
theorem c9_cursor_bounds (fuel : Nat) (ops : List Op) (t : EnumTracker)
    (h : runF fuel EnumTracker.new ops = some t) :
    (∀ n ∈ t.nodes, n.index ≤ n.max_index) ∧
    (t.breadcrumbs ≠ [] →
      ∃ i n, t.breadcrumbs.getLast? = some i ∧ t.nodes[i]? = some n ∧
        t.next_variant_index = some n.index ∧ n.index ≤ n.max_index) := by
  have hI := inv_run ops EnumTracker.new t inv_new h
  refine ⟨hI.idx_le, ?_⟩
  intro hne
  have hsome : t.breadcrumbs.getLast?.isSome := List.getLast?_isSome.mpr hne
  obtain ⟨i, hi⟩ := Option.isSome_iff_exists.mp hsome
  have hmem : i ∈ t.breadcrumbs := List.mem_of_mem_getLast? hi
  have hilt : i < t.nodes.length := hI.bc_lt i hmem
  have hn : t.nodes[i]? = some t.nodes[i] := List.getElem?_eq_getElem hilt
  refine ⟨i, t.nodes[i], hi, hn, ?_, hI.idx_le _ (get_mem hn)⟩
  unfold EnumTracker.next_variant_index
  rw [hi]
  simp only []
  rw [hn]

/-- Witness for C9 at a concrete mid-pass state. -/
theorem c9_cursor_bounds_witness :
    ∃ t, runF 5 EnumTracker.new [Op.opn "A" 1, Op.opn "B" 0] = some t ∧
      (∀ n ∈ t.nodes, n.index ≤ n.max_index) ∧
      t.next_variant_index = some 0 := by
  have h := c9_cursor_bounds 5 [Op.opn "A" 1, Op.opn "B" 0]
      ⟨[⟨"A", 0, 0, 1, [(0, 1)], NodeState.Discovery, []⟩,
        ⟨"B", 1, 0, 0, [], NodeState.Discovery, []⟩], [0, 1]⟩ rfl
  have hnext := (h.2 (by decide)).choose_spec.choose_spec.2.2.1
  exact ⟨_, rfl, h.1, by rfl⟩

/-- C10: every successful open pushes exactly one id, every successful close
pops exactly one (requiring a non-empty stack), and along every successful
run from a fresh tracker the stack depth equals opens minus closes; a
balanced sequence leaves the stack empty. -/
theorem c10_stack_discipline (fuel : Nat) (ops : List Op) (t : EnumTracker)
    (h : runF fuel EnumTracker.new ops = some t) :
    t.breadcrumbs.length + countCloses ops = countOpens ops ∧
    (countOpens ops = countCloses ops → t.breadcrumbs = []) ∧
    (∀ (t1 : EnumTracker) (name : String) (m : Nat) (t2 : EnumTracker),
       t1.open_node name m = some t2 →
       ∃ id, t2.breadcrumbs = t1.breadcrumbs ++ [id]) ∧
    (∀ (t1 t2 : EnumTracker), t1.close_nodeF fuel = some t2 →
       t1.breadcrumbs ≠ [] ∧ t2.breadcrumbs = t1.breadcrumbs.dropLast) := by
  have hrun := run_bc_length ops EnumTracker.new t h
  have hz : EnumTracker.new.breadcrumbs.length = 0 := rfl
  refine ⟨by omega, ?_, ?_, ?_⟩
  · intro hbal
    have : t.breadcrumbs.length = 0 := by omega
    exact List.length_eq_zero.mp this
  · intro t1 name m t2 h2
    exact open_push h2
  · intro t1 t2 h2
    obtain ⟨hne, hpop, -⟩ := close_shape h2
    exact ⟨hne, hpop⟩

/-- Witness for C10 on a balanced concrete sequence. -/
theorem c10_stack_discipline_witness :
    ∃ t, runF 5 EnumTracker.new [Op.opn "A" 1, Op.opn "B" 0, Op.cls, Op.cls] = some t ∧
      t.breadcrumbs = [] ∧
      t.breadcrumbs.length + countCloses [Op.opn "A" 1, Op.opn "B" 0, Op.cls, Op.cls]
        = countOpens [Op.opn "A" 1, Op.opn "B" 0, Op.cls, Op.cls] := by
  have h := c10_stack_discipline 5 [Op.opn "A" 1, Op.opn "B" 0, Op.cls, Op.cls]
      ⟨[⟨"A", 0, 1, 1, [(0, 1)], NodeState.Discovery, []⟩,
        ⟨"B", 1, 0, 0, [], NodeState.Completion, []⟩], []⟩ rfl
  exact ⟨_, rfl, h.2.1 (by decide), h.1⟩

/-- C8 (amended): opening an existing name with a different `max_index` is
silently tolerated: the call succeeds, creates no node, and every node keeps
its original `max_index` — there is no detection and no failure. -/
theorem c8_reuse_ignores_max (fuel : Nat) (ops : List Op) (t : EnumTracker)
    (name : String) (m : Nat)
    (h : runF fuel EnumTracker.new ops = some t)
    (hex : t.node_exists name = true) :
    ∃ t', t.open_node name m = some t' ∧
      t'.nodes.length = t.nodes.length ∧
      t'.nodes.map Node.max_index = t.nodes.map Node.max_index := by
  have hI := inv_run ops EnumTracker.new t inv_new h
  obtain ⟨i, hf⟩ := any_findIdx?_isSome hex
  obtain ⟨p, hp, hpn⟩ := findIdx?_some hf
  have hpthis : p.this = i := hI.this_eq i p hp
  have hres : t.resolve_node name m = some (t, p.this) := by
    unfold EnumTracker.resolve_node
    rw [hex]
    simp only [if_true]
    rw [hf]
    simp only []
    rw [hp]
  have hguard : ∃ t2, t.recursion_guard p.this = some t2 ∧
      t2.nodes.length = t.nodes.length ∧
      t2.nodes.map Node.max_index = t.nodes.map Node.max_index := by
    unfold EnumTracker.recursion_guard
    by_cases hmem : p.this ∈ t.breadcrumbs
    · rw [if_pos hmem]
      rw [hpthis, hp]
      simp only []
      by_cases hrv : p.index ∈ p.recursive_variants
      · rw [if_pos hrv]
        exact ⟨t, rfl, rfl, rfl⟩
      · rw [if_neg hrv]
        refine ⟨_, rfl, ?_, ?_⟩
        · simp
        · have hf1 : ({ p.advance_index true with children := btreeInsert (p.advance_index true).children (p.advance_index true).index (p.advance_index true).this, recursive_variants := (p.advance_index true).recursive_variants ++ [(p.advance_index true).index] } : Node).max_index = p.max_index := (advance_index_fields p true).2.2.1
          show (t.nodes.set i _).map Node.max_index = _
          exact map_set_eq Node.max_index hp hf1
    · rw [if_neg hmem]
      exact ⟨t, rfl, rfl, rfl⟩
  obtain ⟨t2, hg, hglen, hgmax⟩ := hguard
  refine ⟨{ t2 with breadcrumbs := t2.breadcrumbs ++ [p.this] }, ?_, hglen, hgmax⟩
  unfold EnumTracker.open_node
  rw [hres]
  simp only []
  rw [hg]

/-- Counterexample to C8 as stated: after creating "A" with max_index 1,
open("A", 5) succeeds (no error/panic) and the node keeps max_index 1. -/
theorem c8_counterexample :
    ∃ t t', runF 5 EnumTracker.new [Op.opn "A" 1, Op.cls] = some t ∧
      t.open_node "A" 5 = some t' ∧
      t'.nodes.map Node.max_index = [1] := by
  exact ⟨_, _, rfl, rfl, rfl⟩

/-- Witness for the amended C8 at a concrete reachable state. -/
theorem c8_reuse_ignores_max_witness :
    ∃ t', EnumTracker.open_node ⟨[⟨"A", 0, 1, 1, [], NodeState.Discovery, []⟩], []⟩ "A" 5
        = some t' ∧
      t'.nodes.length = 1 ∧ t'.nodes.map Node.max_index = [1] := by
  have h := c8_reuse_ignores_max 5 [Op.opn "A" 1, Op.cls]
      ⟨[⟨"A", 0, 1, 1, [], NodeState.Discovery, []⟩], []⟩ "A" 5 rfl rfl
  obtain ⟨t', h1, h2, h3⟩ := h
  exact ⟨t', h1, h2, h3⟩

/-- One pass over the C4 shape realizing root variant 0 (terminal child). -/
def c4_pass_v0 : List Op :=
  [Op.opn "enum1" 1, Op.opn "enum1child1" 0, Op.cls, Op.cls]

/-- One pass over the C4 shape realizing root variant 1 (child with its own
nested terminal child). -/
def c4_pass_v1 : List Op :=
  [Op.opn "enum1" 1, Op.opn "enum1child2" 0, Op.opn "enum1child2child1" 0,
   Op.cls, Op.cls, Op.cls]

set_option maxHeartbeats 2000000 in
/-- C4 (amended): driving the prescribed passes over the 4-node shape,
`all_complete` is false after passes 1 and 2, true after exactly 3 passes
with a 4-node table; a 4th full walk (cursor prescribes variant 1) adds no
nodes and keeps `all_complete` true, but promotes the root, enum1child2 and
enum1child2child1 from Completion to Completed — so the state is NOT
identical to the state after pass 3; a 5th walk then leaves the tracker
state exactly identical to the state after the 4th. -/
theorem c4_three_passes_amended :
    ∃ t1 t2 t3 t4 t5,
      runF 6 EnumTracker.new c4_pass_v0 = some t1 ∧
      t1.all_completeF 6 = some false ∧
      (t1.nodes[0]?).map Node.index = some 1 ∧
      runF 6 EnumTracker.new (c4_pass_v0 ++ c4_pass_v1) = some t2 ∧
      t2.all_completeF 6 = some false ∧
      (t2.nodes[0]?).map Node.index = some 0 ∧
      runF 6 EnumTracker.new (c4_pass_v0 ++ c4_pass_v1 ++ c4_pass_v0) = some t3 ∧
      t3.all_completeF 6 = some true ∧
      t3.nodes.length = 4 ∧
      (t3.nodes[0]?).map Node.index = some 1 ∧
      runF 6 EnumTracker.new (c4_pass_v0 ++ c4_pass_v1 ++ c4_pass_v0 ++ c4_pass_v1)
        = some t4 ∧
      t4.nodes.length = 4 ∧
      t4.nodes.map Node.name = t3.nodes.map Node.name ∧
      t4.all_completeF 6 = some true ∧
      (t4.nodes[0]?).map Node.index = some 1 ∧
      runF 6 EnumTracker.new
          (c4_pass_v0 ++ c4_pass_v1 ++ c4_pass_v0 ++ c4_pass_v1 ++ c4_pass_v1)
        = some t5 ∧
      t5 = t4 := by
  exact ⟨_, _, _, _, _, rfl, rfl, rfl, rfl, rfl, rfl, rfl, rfl, rfl, rfl, rfl, rfl,
    rfl, rfl, rfl, rfl, rfl⟩

set_option maxHeartbeats 2000000 in
/-- Counterexample to C4 as stated: the state after the 4th full walk
differs from the state after pass 3 (three nodes change phase), although
both are all-complete with 4 nodes. -/
theorem c4_counterexample :
    ∃ t3 t4, runF 6 EnumTracker.new (c4_pass_v0 ++ c4_pass_v1 ++ c4_pass_v0) = some t3 ∧
      runF 6 EnumTracker.new (c4_pass_v0 ++ c4_pass_v1 ++ c4_pass_v0 ++ c4_pass_v1)
        = some t4 ∧
      t3.all_completeF 6 = some true ∧
      t3.nodes.length = 4 ∧ t4.nodes.length = 4 ∧
      t3 ≠ t4 := by
  refine ⟨_, _, rfl, rfl, rfl, rfl, rfl, by decide⟩

end EnumTrackerModel
